import Mathlib

/-!
Verification of the answer-scoring and hallucination-labeling engine of
`open-factual-bench` (src/bench/scoring.py), via a shallow embedding.

Python strings are modelled as `List Char` (sequences of Unicode scalar
values).  Library calls are modelled on the fragment the engine exercises:
`unicodedata.normalize("NFKD", ·)` by a per-character decomposition table
covering the compatibility decompositions the docstring mentions
(superscript digits, ligatures) and acting as the identity elsewhere;
`str.lower` by ASCII lowercasing; `str.strip`/`\s` by the ASCII whitespace
class; `float(...)` by exact decimal parsing followed by rounding to the
nearest IEEE-754 binary64 value (represented exactly as a rational), so
that float comparisons in the matcher are bit-faithful on the normal range.
-/

set_option maxRecDepth 40000

abbrev PyStr := List Char

/-- ASCII whitespace, the model of Python's whitespace class for
`str.strip`, `str.split` and the regex class `\s`. -/
def isPySpace (c : Char) : Bool :=
  c = ' ' || c = '\t' || c = '\n' || c = '\r' || c = Char.ofNat 11 || c = Char.ofNat 12

/-- Word characters for the regex word boundary `\b` and class `\w`
(ASCII fragment). -/
def isWordC (c : Char) : Bool :=
  c.isAlpha || c.isDigit || c = '_'

/-- The backtick character (written via its code point). -/
def btC : Char := Char.ofNat 96

/-- The apostrophe character (written via its code point). -/
def apoC : Char := Char.ofNat 39

/-- ASCII lowercase mapping table, modelling `str.lower`. -/
def lowerTable : List (Char × Char) :=
  [('A', 'a'), ('B', 'b'), ('C', 'c'), ('D', 'd'), ('E', 'e'), ('F', 'f'),
   ('G', 'g'), ('H', 'h'), ('I', 'i'), ('J', 'j'), ('K', 'k'), ('L', 'l'),
   ('M', 'm'), ('N', 'n'), ('O', 'o'), ('P', 'p'), ('Q', 'q'), ('R', 'r'),
   ('S', 's'), ('T', 't'), ('U', 'u'), ('V', 'v'), ('W', 'w'), ('X', 'x'),
   ('Y', 'y'), ('Z', 'z')]

/-- First value bound to the key `c` in an association list. -/
def assocFind {α : Type} : List (Char × α) → Char → Option α
  | [], _ => none
  | (k, v) :: es, c => if c = k then some v else assocFind es c

/-- Lowercase a single character (model of `str.lower`, per character). -/
def lowerChar (c : Char) : Char :=
  (assocFind lowerTable c).getD c

/-- Model of `str.lower`. -/
def pyLower (l : PyStr) : PyStr := l.map lowerChar

/-- Model of `str.strip()`: drop leading and trailing whitespace. -/
def pyStrip (l : PyStr) : PyStr :=
  (l.dropWhile isPySpace).rdropWhile isPySpace

/-- Modelled fragment of the NFKD compatibility-decomposition table used by
`unicodedata.normalize("NFKD", text)`: superscript digits and the fi
ligature (the examples named in the source docstring); every character not
listed decomposes to itself. -/
def nfkdTable : List (Char × PyStr) :=
  [(Char.ofNat 185, ['1']), (Char.ofNat 178, ['2']), (Char.ofNat 179, ['3']),
   (Char.ofNat 64257, ['f', 'i'])]

/-- NFKD decomposition of one character. -/
def nfkdChar (c : Char) : PyStr :=
  (assocFind nfkdTable c).getD [c]

/-- Model of `unicodedata.normalize("NFKD", text)`. -/
def nfkd (l : PyStr) : PyStr := l.flatMap nfkdChar

/-- Model of `re.sub(r"\s+", " ", text)`: every run of whitespace becomes
a single space.  The boolean argument records whether the previous
character was whitespace (i.e. whether we are inside a run). -/
def collapseAux : Bool → PyStr → PyStr
  | _, [] => []
  | inRun, c :: cs =>
    if isPySpace c then
      if inRun then collapseAux true cs else ' ' :: collapseAux true cs
    else
      c :: collapseAux false cs

/-- Collapse whitespace runs to single spaces. -/
def collapseWS (l : PyStr) : PyStr := collapseAux false l

/-- Model of `text.replace("`", "")` (the backtick written via `btC`). -/
def removeBackticks (l : PyStr) : PyStr := l.filter (fun c => c ≠ btC)

/-- The trailing-punctuation set of `rstrip(".,;:!?")`. -/
def puncts : List Char := ['.', ',', ';', ':', '!', '?']

/-- Model of `text.rstrip(".,;:!?")`. -/
def rstripPunct (l : PyStr) : PyStr :=
  l.rdropWhile (fun c => puncts.contains c)

/-- Does `l` start with the article `w` followed by at least one whitespace
character?  (One alternative of the regex `^(the|a|an)\s+`.) -/
def artMatch (w : PyStr) (l : PyStr) : Bool :=
  w.isPrefixOf l &&
    match l.drop w.length with
    | [] => false
    | c :: _ => isPySpace c

/-- Drop the article `w` and the following whitespace run (the replacement
of the matched span of `^(the|a|an)\s+` by the empty string; `\s+` is
greedy, so the whole run is part of the match). -/
def artDrop (w : PyStr) (l : PyStr) : PyStr :=
  (l.drop w.length).dropWhile isPySpace

/-- Does the text begin with a leading article (`the `, `a `, `an `)? -/
def hasLeadingArticle (l : PyStr) : Bool :=
  artMatch ['t', 'h', 'e'] l || artMatch ['a'] l || artMatch ['a', 'n'] l

/-- Model of `re.sub(r"^(the|a|an)\s+", "", text)`: alternatives tried in
the written order, at most one substitution (the pattern is anchored). -/
def articleSub (l : PyStr) : PyStr :=
  if artMatch ['t', 'h', 'e'] l then artDrop ['t', 'h', 'e'] l
  else if artMatch ['a'] l then artDrop ['a'] l
  else if artMatch ['a', 'n'] l then artDrop ['a', 'n'] l
  else l

/-- Model of `_normalize` (src/bench/scoring.py): NFKD, lowercase, strip,
collapse whitespace, remove backticks, strip trailing punctuation, strip a
single leading article, final strip. -/
def _normalize (text : PyStr) : PyStr :=
  let t1 := nfkd text
  let t2 := pyStrip (pyLower t1)
  let t3 := collapseWS t2
  let t4 := rstripPunct (removeBackticks t3)
  let t5 := articleSub t4
  pyStrip t5

/-- The `_NUMBER_WORDS` mapping, in source (dict) order. -/
def numberWords : List (PyStr × PyStr) :=
  [(['z','e','r','o'], ['0']), (['o','n','e'], ['1']), (['t','w','o'], ['2']),
   (['t','h','r','e','e'], ['3']), (['f','o','u','r'], ['4']),
   (['f','i','v','e'], ['5']), (['s','i','x'], ['6']),
   (['s','e','v','e','n'], ['7']), (['e','i','g','h','t'], ['8']),
   (['n','i','n','e'], ['9']), (['t','e','n'], ['1','0']),
   (['e','l','e','v','e','n'], ['1','1']),
   (['t','w','e','l','v','e'], ['1','2']),
   (['t','h','i','r','t','e','e','n'], ['1','3']),
   (['f','o','u','r','t','e','e','n'], ['1','4']),
   (['f','i','f','t','e','e','n'], ['1','5']),
   (['s','i','x','t','e','e','n'], ['1','6']),
   (['s','e','v','e','n','t','e','e','n'], ['1','7']),
   (['e','i','g','h','t','e','e','n'], ['1','8']),
   (['n','i','n','e','t','e','e','n'], ['1','9']),
   (['t','w','e','n','t','y'], ['2','0']),
   (['h','u','n','d','r','e','d'], ['1','0','0']),
   (['t','h','o','u','s','a','n','d'], ['1','0','0','0'])]

/-- Case-insensitive literal prefix test (the vocabulary is lowercase). -/
def ciPrefix (w : PyStr) (l : PyStr) : Bool :=
  ((l.take w.length).map lowerChar) == w

/-- The character after the candidate match must not be a word character
(the closing `\b` of `\b(zero|...)\b`). -/
def afterOK : PyStr → Bool
  | [] => true
  | c :: _ => !isWordC c

/-- Find the first number word (in alternation order) matching at this
position with a closing word boundary. -/
def findNumberWord (l : PyStr) : Option (PyStr × PyStr) :=
  numberWords.find? (fun wd => ciPrefix wd.1 l && afterOK (l.drop wd.1.length))

/-- Scanner for `_NUMBER_WORDS_RE.sub`: walk the text; at each position
with an opening word boundary (`prevW = false`), replace a matching
vocabulary word by its digits and continue after it.  `fuel` bounds the
recursion (each step consumes at least one character, so `l.length`
suffices). -/
def nnAux : Nat → Bool → PyStr → PyStr
  | 0, _, l => l
  | _ + 1, _, [] => []
  | fuel + 1, prevW, c :: cs =>
    if !prevW then
      match findNumberWord (c :: cs) with
      | some wd => wd.2 ++ nnAux fuel true ((c :: cs).drop wd.1.length)
      | none => c :: nnAux fuel (isWordC c) cs
    else
      c :: nnAux fuel (isWordC c) cs

/-- Model of `_normalize_numbers` (src/bench/scoring.py). -/
def _normalize_numbers (text : PyStr) : PyStr :=
  nnAux text.length false text

/-- Digit-list to natural number. -/
def digitsToNat (l : PyStr) : Nat :=
  l.foldl (fun acc c => 10 * acc + (c.toNat - 48)) 0

/-- Exact rational numbers as unnormalized fractions (integer numerator,
positive natural denominator).  The kernel evaluates the arithmetic of
this type directly, which a gcd-normalizing representation would not
allow; every construction below keeps the denominator positive. -/
structure Frac where
  num : ℤ
  den : ℕ
deriving DecidableEq

/-- The integer `n` as a fraction. -/
def Frac.ofInt (n : ℤ) : Frac := ⟨n, 1⟩

/-- Fraction multiplication. -/
def Frac.mul (a b : Frac) : Frac := ⟨a.num * b.num, a.den * b.den⟩

/-- Fraction subtraction. -/
def Frac.sub (a b : Frac) : Frac :=
  ⟨a.num * (b.den : ℤ) - b.num * (a.den : ℤ), a.den * b.den⟩

/-- Strict comparison of fractions (valid for positive denominators). -/
def Frac.blt (a b : Frac) : Bool := a.num * (b.den : ℤ) < b.num * (a.den : ℤ)

/-- Non-strict comparison of fractions. -/
def Frac.ble (a b : Frac) : Bool := a.num * (b.den : ℤ) ≤ b.num * (a.den : ℤ)

/-- Absolute value of a fraction. -/
def Frac.abs (a : Frac) : Frac := ⟨|a.num|, a.den⟩

/-- Floor of a fraction (floor division). -/
def Frac.floor (a : Frac) : ℤ := Int.fdiv a.num (a.den : ℤ)

/-- `2 ^ k` as a fraction, for integer `k`. -/
def twoZPow (k : ℤ) : Frac :=
  if 0 ≤ k then ⟨(2 : ℤ) ^ k.toNat, 1⟩ else ⟨1, 2 ^ (-k).toNat⟩

/-- `2 ^ n` as a fraction, for natural `n`. -/
def twoNPow (n : ℕ) : Frac := ⟨(2 : ℤ) ^ n, 1⟩

/-- Round a fraction to the nearest integer, ties to even. -/
def roundHalfEven (q : Frac) : ℤ :=
  let f := q.floor
  let r := q.sub (Frac.ofInt f)
  if r.blt ⟨1, 2⟩ then f
  else if Frac.blt ⟨1, 2⟩ r then f + 1
  else if f % 2 = 0 then f else f + 1

/-- Increase `k` until `a * 2 ^ k` reaches `2 ^ 52`. -/
def upScale : Nat → Frac → ℤ → ℤ
  | 0, _, k => k
  | fuel + 1, a, k =>
    if (a.mul (twoZPow k)).blt (twoNPow 52) then upScale fuel a (k + 1) else k

/-- Decrease `k` until `a * 2 ^ k` is below `2 ^ 53`. -/
def downScale : Nat → Frac → ℤ → ℤ
  | 0, _, k => k
  | fuel + 1, a, k =>
    if (twoNPow 53).ble (a.mul (twoZPow k)) then downScale fuel a (k - 1) else k

/-- Round a fraction to the nearest IEEE-754 binary64 value, returned as
the exact fraction it denotes (normal range; ties to even).  This models
what `float(...)` and float subtraction do to the exact decimal values. -/
def roundToDouble (q : Frac) : Frac :=
  if q.num = 0 then ⟨0, 1⟩
  else
    let a := q.abs
    let k := downScale 3000 a (upScale 3000 a 0)
    let m := roundHalfEven (a.mul (twoZPow k))
    Frac.mul ⟨if q.num < 0 then -m else m, 1⟩ (twoZPow (-k))

/-- Parse an optional exponent part `e[+-]?digits`; returns the signed
exponent if the remainder is fully consumed, `none` on any leftover. -/
def parseExpPart : PyStr → Option ℤ
  | [] => some 0
  | c :: r =>
    if c = 'e' || c = 'E' then
      let (esign, r2) :=
        match r with
        | s :: r' => if s = '+' then ((1 : ℤ), r') else if s = '-' then (-1, r') else (1, r)
        | [] => (1, r)
      let ds := r2.takeWhile Char.isDigit
      let rest := r2.dropWhile Char.isDigit
      if ds ≠ [] && rest = [] then some (esign * (digitsToNat ds : ℤ)) else none
    else none

/-- Exact-decimal core of `float(...)`: optional sign, digits with at most
one point (at least one digit overall), optional exponent; whitespace is
stripped first.  Returns the exact decimal value as a fraction. -/
def pyFloatExact? (l : PyStr) : Option Frac :=
  let t := pyStrip l
  let (neg, t1) :=
    match t with
    | c :: r => if c = '+' then (false, r) else if c = '-' then (true, r) else (false, t)
    | [] => (false, t)
  let ipart := t1.takeWhile Char.isDigit
  let r1 := t1.dropWhile Char.isDigit
  let (fpart, r2) :=
    match r1 with
    | c :: r' => if c = '.' then (r'.takeWhile Char.isDigit, r'.dropWhile Char.isDigit) else ([], r1)
    | [] => ([], r1)
  if ipart = [] && fpart = [] then none
  else
    match parseExpPart r2 with
    | none => none
    | some e =>
      let mant : ℤ := (digitsToNat ipart * 10 ^ fpart.length + digitsToNat fpart : ℕ)
      let base : Frac := ⟨if neg then -mant else mant, 10 ^ fpart.length⟩
      some (if 0 ≤ e then ⟨base.num * (10 : ℤ) ^ e.toNat, base.den⟩
            else ⟨base.num, base.den * 10 ^ (-e).toNat⟩)

/-- Model of `float(...)`: exact decimal parse, then rounding to the
nearest binary64 value. -/
def pyFloat? (l : PyStr) : Option Frac :=
  (pyFloatExact? l).map roundToDouble

/-- Model of `s.replace(",", "")`. -/
def removeCommas (l : PyStr) : PyStr := l.filter (fun c => c ≠ ',')

/-- Model of `_numeric_match` (src/bench/scoring.py): strip commas, parse
both sides as floats, compare `abs(pred_f - ref_f) < epsilon` (the
subtraction is rounded like the IEEE operation); parse failure yields
`false`, never an error. -/
def _numeric_match (pred ref : PyStr) (epsilon : Frac) : Bool :=
  match pyFloat? (removeCommas pred), pyFloat? (removeCommas ref) with
  | some p, some r => (roundToDouble (p.sub r)).abs.blt epsilon
  | _, _ => false

/-- The default epsilon `0.01`, as the binary64 value the Python literal
denotes. -/
def defaultEpsilon : Frac := roundToDouble ⟨1, 100⟩

/-- Model of `_is_placeholder` (src/bench/scoring.py). -/
def _is_placeholder (ref : PyStr) : Bool :=
  let refLower := pyLower (pyStrip ref)
  refLower.contains '[' && refLower.contains ']'

/-- Model of the `Task` dataclass (src/bench/schema.py); the source name
`Task` is taken by the Lean core library, hence the prefix.  `metadata`
(`Dict[str, Any]`) is modelled as an optional string-to-string table. -/
structure BenchTask where
  id : PyStr
  domain : PyStr
  question : PyStr
  reference_answer : PyStr
  context : Option PyStr
  source : Option PyStr
  created_at : Option PyStr
  notes : Option PyStr
  metadata : Option (List (PyStr × PyStr))

/-- A task with the given reference answer and empty other fields. -/
def mkTask (ref : PyStr) : BenchTask :=
  ⟨[], [], [], ref, none, none, none, none, none⟩

/-- Model of `pred_full.split("\n")[0]`. -/
def firstLineOf (l : PyStr) : PyStr := l.takeWhile (fun c => c ≠ '\n')

/-- Model of Python's substring test `p in s`: `p` occurs contiguously in
`s` (the empty string occurs in everything). -/
def isSubstr (p s : PyStr) : Bool := s.tails.any (fun t => p.isPrefixOf t)

/-- The token-splitting class of step 6 of the scorer. -/
def splitClassChars : List Char :=
  ['\t', '\n', '\r', Char.ofNat 11, Char.ofNat 12, ' ', btC, '.', ',', ';', ':',
   '!', '?', '(', ')', '[', ']', Char.ofNat 123, Char.ofNat 125, Char.ofNat 34, apoC]

/-- Is `c` in the splitting class `[\s`.,;:!?()\[\]{}"']`? -/
def isSplitC (c : Char) : Bool := splitClassChars.contains c

/-- Model of `re.split(r"[...]+", s)`: split on maximal runs of class
characters; a run at either end yields an empty boundary token, as in
Python.  `fuel` bounds the recursion (`l.length` suffices: each recursive
step consumes at least one character). -/
def splitClassAux : Nat → PyStr → List PyStr
  | 0, l => [l]
  | fuel + 1, l =>
    let tok := l.takeWhile (fun c => !isSplitC c)
    let rest := l.dropWhile (fun c => !isSplitC c)
    match rest with
    | [] => [tok]
    | _ => tok :: splitClassAux fuel (rest.dropWhile isSplitC)

/-- Split the first line into tokens. -/
def splitClass (l : PyStr) : List PyStr := splitClassAux l.length l

/-- Model of `score_task` (src/bench/scoring.py).  `none` is the Python
`None` (ungradable), `some true`/`some false` are correct/incorrect. -/
def score_task (pred : PyStr) (task : BenchTask) : Option Bool :=
  let ref_raw := pyStrip task.reference_answer
  if _is_placeholder ref_raw then none
  else if 80 < ref_raw.length then none
  else
    let ref := _normalize_numbers (_normalize ref_raw)
    let pred_full := _normalize_numbers (_normalize pred)
    if pred_full = ref then some true
    else
      let first_line := firstLineOf pred_full
      if isSubstr ref first_line then some true
      else if _numeric_match first_line ref defaultEpsilon then some true
      else if ref.length ≤ 5 ∧ (splitClass first_line).contains ref then some true
      else some false

/-- Model of `exact_match_score` (src/bench/scoring.py), the legacy
alias. -/
def exact_match_score (pred : PyStr) (task : BenchTask) : Option Bool :=
  score_task pred task

/-- The refusal/correction phrase alternatives, lowercased, obtained by
expanding the finite alternations of `_REFUSAL_PATTERNS` (the `'?`
optional-apostrophe forms are listed both ways; the apostrophe is written
via `apoC`).  The `died in \d{4}` alternative is handled separately by
`diedInAux`. -/
def refusalPhrases : List PyStr :=
  [['i', ' ', 'd', 'o', 'n', apoC, 't', ' ', 'k', 'n', 'o', 'w'],
   ['i', ' ', 'd', 'o', 'n', 't', ' ', 'k', 'n', 'o', 'w'],
   ['i', ' ', 'c', 'a', 'n', 'n', 'o', 't'],
   ['i', ' ', 'c', 'a', 'n', apoC, 't'],
   ['i', ' ', 'c', 'a', 'n', 't'],
   ['n', 'o', 't', ' ', 's', 'u', 'r', 'e'],
   ['d', 'i', 'd', ' ', 'n', 'o', 't'],
   ['d', 'o', 'e', 's', ' ', 'n', 'o', 't'],
   ['d', 'o', 'e', 's', 'n', apoC, 't'],
   ['d', 'o', 'e', 's', 'n', 't'],
   ['d', 'o', ' ', 'n', 'o', 't'],
   ['d', 'o', 'n', apoC, 't'],
   ['d', 'o', 'n', 't'],
   ['f', 'i', 'c', 't', 'i', 'o', 'n', 'a', 'l'],
   ['f', 'i', 'c', 't', 'i', 't', 'i', 'o', 'u', 's'],
   ['n', 'o', 't', ' ', 'r', 'e', 'a', 'l'],
   ['d', 'o', 'e', 's', 'n', apoC, 't', ' ', 'e', 'x', 'i', 's', 't'],
   ['d', 'o', 'e', 's', 'n', 't', ' ', 'e', 'x', 'i', 's', 't'],
   ['d', 'o', 'e', 's', ' ', 'n', 'o', 't', ' ', 'e', 'x', 'i', 's', 't'],
   ['f', 'a', 'l', 's', 'e', ' ', 'p', 'r', 'e', 'm', 'i', 's', 'e'],
   ['i', 'm', 'p', 'o', 's', 's', 'i', 'b', 'l', 'e'],
   ['n', 'o', ' ', 's', 'u', 'c', 'h'],
   ['n', 'e', 'v', 'e', 'r', ' ', 'h', 'a', 'p', 'p', 'e', 'n', 'e', 'd'],
   ['n', 'o', ' ', 'e', 'v', 'i', 'd', 'e', 'n', 'c', 'e'],
   ['c', 'a', 'n', 'n', 'o', 't', ' ', 'f', 'i', 'n', 'd'],
   ['c', 'a', 'n', 'n', 'o', 't', ' ', 'v', 'e', 'r', 'i', 'f', 'y'],
   ['c', 'a', 'n', 'n', 'o', 't', ' ', 'c', 'o', 'n', 'f', 'i', 'r', 'm'],
   ['w', 'a', 's', ' ', 'i', 'n', 'v', 'e', 'n', 't', 'e', 'd'],
   ['n', 'o', 't', ' ', 'p', 'o', 's', 's', 'i', 'b', 'l', 'e']]

/-- Does the literal phrase `p` (which starts and ends with word
characters) occur in the text at a position with word boundaries on both
sides?  The boolean argument records whether the preceding character is a
word character. -/
def wordOccursAux (p : PyStr) : Bool → PyStr → Bool
  | prevW, [] => !prevW && p.isPrefixOf ([] : PyStr)
  | prevW, c :: cs =>
    (!prevW && p.isPrefixOf (c :: cs) && afterOK ((c :: cs).drop p.length)) ||
      wordOccursAux p (isWordC c) cs

/-- Word-boundary occurrence search, starting at the string start (which
is a boundary). -/
def wordOccurs (p : PyStr) (s : PyStr) : Bool := wordOccursAux p false s

/-- The literal prefix `died in ` of the `died in \d{4}` alternative. -/
def diedInLit : PyStr := ['d', 'i', 'e', 'd', ' ', 'i', 'n', ' ']

/-- Search for `\bdied in \d{4}\b`: the literal `died in ` at a word
boundary, followed by exactly four digits and a closing boundary. -/
def diedInAux : Bool → PyStr → Bool
  | _, [] => false
  | prevW, c :: cs =>
    (!prevW && diedInLit.isPrefixOf (c :: cs) &&
      (let rest := (c :: cs).drop 8
       rest.take 4 |>.all Char.isDigit) &&
      ((c :: cs).drop 8).length ≥ 4 &&
      afterOK ((c :: cs).drop 12)) ||
      diedInAux (isWordC c) cs

/-- Model of `_REFUSAL_RE.search(...) is not None`: the search is
case-insensitive, so it is performed on the lowercased text against the
lowercase phrase list. -/
def refusalSearch (s : PyStr) : Bool :=
  let t := pyLower s
  refusalPhrases.any (fun p => wordOccurs p t) || diedInAux false t

/-- Try to match `[A-Z][a-z]+(?:\s+[A-Z][a-z]+)+` at the head of the text.
For a boolean search the first repetition of the group suffices, and the
greedy runs coincide with the maximal runs. -/
def pnMatchAt : PyStr → Bool
  | [] => false
  | c :: cs =>
    c.isUpper &&
      (let lows := cs.takeWhile Char.isLower
       let r1 := cs.dropWhile Char.isLower
       !lows.isEmpty &&
         (let wss := r1.takeWhile isPySpace
          let r2 := r1.dropWhile isPySpace
          !wss.isEmpty &&
            match r2 with
            | [] => false
            | d :: ds => d.isUpper && !(ds.takeWhile Char.isLower).isEmpty))

/-- Model of `_PROPER_NOUN_RE.search(...) is not None`: does the
capitalized multi-word pattern match anywhere in the text? -/
def pnSearch : PyStr → Bool
  | [] => false
  | c :: cs => pnMatchAt (c :: cs) || pnSearch cs

/-- Model of `pred_stripped.split()`: split on whitespace runs, no empty
tokens.  `fuel` bounds the recursion (`l.length` suffices). -/
def pyWordsAux : Nat → PyStr → List PyStr
  | 0, _ => []
  | fuel + 1, l =>
    let l1 := l.dropWhile isPySpace
    match l1 with
    | [] => []
    | _ =>
      l1.takeWhile (fun c => !isPySpace c) ::
        pyWordsAux fuel (l1.dropWhile (fun c => !isPySpace c))

/-- Whitespace word split. -/
def pyWords (l : PyStr) : List PyStr := pyWordsAux l.length l

/-- Model of `pred_stripped.endswith("?")`. -/
def endsWithQ (l : PyStr) : Bool := l.getLast? == some '?'

/-- Model of `label_hallucination_task` (src/bench/scoring.py).  The
returned Python dict `{"hallucination_label": v}` is modelled as the
association list `[("hallucination_label", v)]`. -/
def label_hallucination_task (pred : PyStr) (_task : BenchTask) :
    List (String × String) :=
  let pred_stripped := pyStrip pred
  if pred_stripped.length < 3 then [("hallucination_label", "unclear")]
  else if refusalSearch pred_stripped then
    [("hallucination_label", "refusal_or_correction")]
  else if pnSearch pred_stripped then
    [("hallucination_label", "hallucination_candidate")]
  else if (pyWords pred_stripped).length ≤ 8 ∧ ¬endsWithQ pred_stripped then
    [("hallucination_label", "hallucination_candidate")]
  else [("hallucination_label", "unclear")]

/-- The witness string `I don't know` (apostrophe via `apoC`). -/
def iDontKnowStr : PyStr :=
  ['I', ' ', 'd', 'o', 'n', apoC, 't', ' ', 'k', 'n', 'o', 'w']

/-- No two adjacent whitespace characters occur in the string. -/
def noTwoSpaces : PyStr → Bool
  | a :: b :: t => !(isPySpace a && isPySpace b) && noTwoSpaces (b :: t)
  | _ => true

/-- Does the string end with a character from the `rstrip` set `.,;:!?` -/
def endsPunct (l : PyStr) : Bool :=
  match l.getLast? with
  | some c => puncts.contains c
  | none => false

/-- C10: the legacy alias is extensionally equal to the current scorer:
`exact_match_score(pred, t) == score_task(pred, t)` for every prediction
and task. -/
theorem exact_match_score_eq_score_task :
    ∀ (pred : PyStr) (t : BenchTask), exact_match_score pred t = score_task pred t :=
  fun _ _ => rfl

/-- C8: the hallucination labeler's result depends only on the raw
prediction text; the reference answer and all other task fields have no
influence on the returned label. -/
theorem label_hallucination_ignores_task :
    ∀ (pred : PyStr) (t1 t2 : BenchTask),
      label_hallucination_task pred t1 = label_hallucination_task pred t2 :=
  fun _ _ _ => rfl

/-- C6: number-word normalization substitutes whole-word occurrences of
the vocabulary independently and case-insensitively with digit strings:
`eight planets ↦ 8 planets`, `one hundred ↦ 1 100` (never combined),
substrings inside longer words (`stone`) untouched, case-insensitive
(`EIGHT ↦ 8`). -/
theorem normalize_numbers_eval :
    _normalize_numbers "eight planets".toList = "8 planets".toList ∧
    _normalize_numbers "one hundred".toList = "1 100".toList ∧
    _normalize_numbers "stone".toList = "stone".toList ∧
    _normalize_numbers "EIGHT planets".toList = "8 planets".toList := by
  refine ⟨?_, ?_, ?_, ?_⟩ <;> decide

/-- C5: the hallucination labeler applies its rules in a fixed order with
earlier rules taking strict precedence: trimmed length below 3 gives
`unclear`; otherwise a refusal-pattern match gives `refusal_or_correction`
(regardless of any capitalized phrase); otherwise a capitalized multi-word
phrase gives `hallucination_candidate`; otherwise at most eight words not
ending in `?` gives `hallucination_candidate`; otherwise `unclear`.
Witnesses: `I don't know`, `Paris France`, `ok`. -/
theorem label_hallucination_decision_order :
    (∀ (p : PyStr) (t : BenchTask), (pyStrip p).length < 3 →
      label_hallucination_task p t = [("hallucination_label", "unclear")]) ∧
    (∀ (p : PyStr) (t : BenchTask), ¬ (pyStrip p).length < 3 →
      refusalSearch (pyStrip p) = true →
      label_hallucination_task p t = [("hallucination_label", "refusal_or_correction")]) ∧
    (∀ (p : PyStr) (t : BenchTask), ¬ (pyStrip p).length < 3 →
      refusalSearch (pyStrip p) = false → pnSearch (pyStrip p) = true →
      label_hallucination_task p t = [("hallucination_label", "hallucination_candidate")]) ∧
    (∀ (p : PyStr) (t : BenchTask), ¬ (pyStrip p).length < 3 →
      refusalSearch (pyStrip p) = false → pnSearch (pyStrip p) = false →
      (pyWords (pyStrip p)).length ≤ 8 → endsWithQ (pyStrip p) = false →
      label_hallucination_task p t = [("hallucination_label", "hallucination_candidate")]) ∧
    (∀ (p : PyStr) (t : BenchTask), ¬ (pyStrip p).length < 3 →
      refusalSearch (pyStrip p) = false → pnSearch (pyStrip p) = false →
      ¬ ((pyWords (pyStrip p)).length ≤ 8 ∧ endsWithQ (pyStrip p) = false) →
      label_hallucination_task p t = [("hallucination_label", "unclear")]) ∧
    label_hallucination_task iDontKnowStr (mkTask ['x']) =
      [("hallucination_label", "refusal_or_correction")] ∧
    label_hallucination_task "Paris France".toList (mkTask ['x']) =
      [("hallucination_label", "hallucination_candidate")] ∧
    label_hallucination_task "ok".toList (mkTask ['x']) =
      [("hallucination_label", "unclear")] := by
  refine ⟨?_, ?_, ?_, ?_, ?_, by decide, by decide, by decide⟩
  · intro p t h
    simp [label_hallucination_task, h]
  · intro p t h1 h2
    simp [label_hallucination_task, h1, h2]
  · intro p t h1 h2 h3
    simp [label_hallucination_task, h1, h2, h3]
  · intro p t h1 h2 h3 h4 h5
    simp [label_hallucination_task, h1, h2, h3, h4, h5]
  · intro p t h1 h2 h3 h4
    simp only [label_hallucination_task, if_neg h1, h2, h3, Bool.false_eq_true,
      if_false]
    rw [if_neg]
    intro hcontra
    exact h4 ⟨hcontra.1, by simpa using hcontra.2⟩

/-- Closed witness discharging the hypotheses of
`label_hallucination_decision_order` at concrete inputs. -/
theorem label_hallucination_decision_order_witness :
    ((pyStrip ("ok".toList)).length < 3 ∧
      label_hallucination_task "ok".toList (mkTask ['x']) =
        [("hallucination_label", "unclear")]) ∧
    (refusalSearch (pyStrip iDontKnowStr) = true ∧
      label_hallucination_task iDontKnowStr (mkTask ['x']) =
        [("hallucination_label", "refusal_or_correction")]) :=
  ⟨⟨by decide, label_hallucination_decision_order.1 "ok".toList (mkTask ['x']) (by decide)⟩,
   ⟨by decide, (label_hallucination_decision_order.2.1) iDontKnowStr (mkTask ['x'])
      (by decide) (by decide)⟩⟩

/-- C4 counterexample: a pair whose parsed difference is exactly the
binary64 value 0.01 (here the parse and the subtraction are exact, in the
model and in IEEE arithmetic alike).  The comparison is strict, so the
claimed inclusive boundary fails: the scorer answers Incorrect, not
Correct. -/
theorem numeric_boundary_counterexample :
    score_task "0.02".toList (mkTask "0.01".toList) = some false := by
  decide

/-- C4 (amended): when both comma-stripped sides parse as floats the
numeric stage matches exactly when the (rounded) absolute difference is
strictly below epsilon; parse failure on either side silently yields no
match; `3.14` vs `3.1416` and `3.15` vs `3.14` score Correct, `3.20` vs
`3.14` scores Incorrect, and a non-numeric prediction falls through to an
Incorrect verdict rather than an error. -/
theorem numeric_tolerance_spec :
    (∀ (p r : PyStr) (eps a b : Frac),
      pyFloat? (removeCommas p) = some a → pyFloat? (removeCommas r) = some b →
      (_numeric_match p r eps = true ↔ (roundToDouble (a.sub b)).abs.blt eps = true)) ∧
    (∀ (p r : PyStr) (eps : Frac),
      pyFloat? (removeCommas p) = none ∨ pyFloat? (removeCommas r) = none →
      _numeric_match p r eps = false) ∧
    score_task "3.14".toList (mkTask "3.1416".toList) = some true ∧
    score_task "3.15".toList (mkTask "3.14".toList) = some true ∧
    score_task "3.20".toList (mkTask "3.14".toList) = some false ∧
    _numeric_match "0.02".toList "0.01".toList defaultEpsilon = false ∧
    score_task "pi".toList (mkTask "3.1416".toList) = some false := by
  refine ⟨?_, ?_, by decide, by decide, by decide, by decide, by decide⟩
  · intro p r eps a b hp hr
    simp [_numeric_match, hp, hr]
  · intro p r eps h
    rcases h with h | h <;> simp [_numeric_match, h]

/-- Closed witness discharging the hypotheses of `numeric_tolerance_spec`
at concrete inputs. -/
theorem numeric_tolerance_spec_witness :
    (pyFloat? (removeCommas "1,024".toList) = some ⟨4503599627370496, 4398046511104⟩ ∧
      pyFloat? (removeCommas "1024".toList) = some ⟨4503599627370496, 4398046511104⟩ ∧
      (_numeric_match "1,024".toList "1024".toList defaultEpsilon = true ↔
        (roundToDouble (Frac.sub ⟨4503599627370496, 4398046511104⟩
          ⟨4503599627370496, 4398046511104⟩)).abs.blt defaultEpsilon = true)) ∧
    (pyFloat? (removeCommas "abc".toList) = none ∧
      _numeric_match "abc".toList "123".toList defaultEpsilon = false) :=
  ⟨⟨by decide, by decide,
    numeric_tolerance_spec.1 "1,024".toList "1024".toList defaultEpsilon
      ⟨4503599627370496, 4398046511104⟩ ⟨4503599627370496, 4398046511104⟩
      (by decide) (by decide)⟩,
   ⟨by decide, numeric_tolerance_spec.2.1 "abc".toList "123".toList defaultEpsilon
      (Or.inl (by decide))⟩⟩

/-- Characters of the stripped string are characters of the string. -/
theorem mem_pyStrip {c : Char} {l : PyStr} (h : c ∈ pyStrip l) : c ∈ l :=
  List.IsSuffix.mem (List.IsPrefix.mem h (List.rdropWhile_prefix _ _))
    (List.dropWhile_suffix _)

/-- Stripping does not increase length. -/
theorem length_pyStrip_le (l : PyStr) : (pyStrip l).length ≤ l.length :=
  le_trans (List.IsPrefix.length_le (List.rdropWhile_prefix _ _))
    (List.IsSuffix.length_le (List.dropWhile_suffix _))

/-- `pyStrip` is idempotent. -/
theorem pyStrip_idem (l : PyStr) : pyStrip (pyStrip l) = pyStrip l := by
  unfold pyStrip
  have h1 : (List.rdropWhile isPySpace (l.dropWhile isPySpace)).dropWhile isPySpace
      = List.rdropWhile isPySpace (l.dropWhile isPySpace) := by
    rw [List.dropWhile_eq_self_iff]
    intro hl
    have hpre := List.rdropWhile_prefix isPySpace (l.dropWhile isPySpace)
    have hlen : 0 < (l.dropWhile isPySpace).length :=
      lt_of_lt_of_le hl hpre.length_le
    have := List.dropWhile_get_zero_not isPySpace l hlen
    simpa [List.get_eq_getElem, hpre.getElem hl] using this
  rw [h1, List.rdropWhile_idempotent]

/-- A successful association lookup returns a pair of the table. -/
theorem assocFind_mem {α : Type} :
    ∀ {xs : List (Char × α)} {c : Char} {b : α},
      assocFind xs c = some b → ∃ p, p ∈ xs ∧ c = p.1 ∧ p.2 = b := by
  intro xs
  induction xs with
  | nil => intro c b h; simp [assocFind] at h
  | cons x es ih =>
    intro c b h
    obtain ⟨k, v⟩ := x
    rw [assocFind] at h
    split at h
    · rename_i hck
      exact ⟨(k, v), List.mem_cons_self _ _, hck, by simpa using h⟩
    · obtain ⟨p, hp, hcp, hpb⟩ := ih h
      exact ⟨p, List.mem_cons_of_mem _ hp, hcp, hpb⟩

/-- Characters that are not ASCII uppercase are fixed by `lowerChar`. -/
theorem lowerChar_eq_self_of_not_upper {c : Char} (hu : c.isUpper = false) :
    lowerChar c = c := by
  unfold lowerChar
  cases h : assocFind lowerTable c with
  | none => rfl
  | some v =>
    obtain ⟨p, hp, hcp, _⟩ := assocFind_mem h
    have : lowerTable.all (fun q => q.1.isUpper) = true := by decide
    rw [List.all_eq_true] at this
    rw [hcp] at hu
    rw [this p hp] at hu
    cases hu

/-- The image of `lowerChar` is either the original character or an ASCII
lowercase letter. -/
theorem lowerChar_lower_or_self (c : Char) :
    (lowerChar c).isLower = true ∨ lowerChar c = c := by
  unfold lowerChar
  cases h : assocFind lowerTable c with
  | none => exact Or.inr rfl
  | some v =>
    obtain ⟨p, hp, _, hpb⟩ := assocFind_mem h
    have : lowerTable.all (fun q => q.2.isLower) = true := by decide
    rw [List.all_eq_true] at this
    exact Or.inl (by simpa [hpb] using this p hp)

/-- For a character that is neither ASCII lowercase nor uppercase,
membership in the lowercased string is membership in the string. -/
theorem mem_pyLower_iff {d : Char} (hl : d.isLower = false) (hu : d.isUpper = false)
    {l : PyStr} : d ∈ pyLower l ↔ d ∈ l := by
  unfold pyLower
  rw [List.mem_map]
  constructor
  · rintro ⟨a, ha, had⟩
    rcases lowerChar_lower_or_self a with h | h
    · rw [had] at h
      rw [h] at hl; cases hl
    · rw [h] at had
      rwa [had] at ha
  · intro hd
    exact ⟨d, hd, lowerChar_eq_self_of_not_upper hu⟩

/-- `_is_placeholder` on an already-stripped reference holds exactly when
both brackets occur in it. -/
theorem is_placeholder_strip_iff (r : PyStr) :
    _is_placeholder (pyStrip r) = true ↔ ('[' ∈ pyStrip r ∧ ']' ∈ pyStrip r) := by
  unfold _is_placeholder
  rw [pyStrip_idem, Bool.and_eq_true]
  have hL : (pyLower (pyStrip r)).contains '[' = true ↔ '[' ∈ pyStrip r := by
    rw [show ((pyLower (pyStrip r)).contains '[' = true) =
        ((pyLower (pyStrip r)).elem '[' = true) from rfl, List.elem_iff]
    exact mem_pyLower_iff (by decide) (by decide)
  have hR : (pyLower (pyStrip r)).contains ']' = true ↔ ']' ∈ pyStrip r := by
    rw [show ((pyLower (pyStrip r)).contains ']' = true) =
        ((pyLower (pyStrip r)).elem ']' = true) from rfl, List.elem_iff]
    exact mem_pyLower_iff (by decide) (by decide)
  rw [hL, hR]

/-- C1: `score_task(pred, task)` is `None` (ungradable) exactly when the
trimmed reference contains both `[` and `]` or is longer than 80
characters; the test does not involve the prediction, and in every other
case the result is `some true` or `some false`. -/
theorem score_task_none_iff (pred : PyStr) (t : BenchTask) :
    score_task pred t = none ↔
      ('[' ∈ pyStrip t.reference_answer ∧ ']' ∈ pyStrip t.reference_answer) ∨
        80 < (pyStrip t.reference_answer).length := by
  unfold score_task
  by_cases h1 : _is_placeholder (pyStrip t.reference_answer) = true
  · rw [if_pos h1]
    exact iff_of_true rfl (Or.inl ((is_placeholder_strip_iff _).mp h1))
  · rw [if_neg h1]
    by_cases h2 : 80 < (pyStrip t.reference_answer).length
    · rw [if_pos h2]
      exact iff_of_true rfl (Or.inr h2)
    · rw [if_neg h2]
      refine iff_of_false ?_ ?_
      · simp only []
        intro hc
        revert hc
        split
        · simp
        · split
          · simp
          · split
            · simp
            · split <;> simp
      · intro hc
        rcases hc with hc | hc
        · exact h1 ((is_placeholder_strip_iff _).mpr hc)
        · exact h2 hc

/-- The empty string is a substring of everything (Python `"" in s`). -/
theorem isSubstr_nil (s : PyStr) : isSubstr [] s = true := by
  induction s with
  | nil => rfl
  | cons c cs ih =>
    unfold isSubstr at ih ⊢
    simp only [List.tails, List.any_cons] at ih ⊢
    simp [ih]

/-- C7 counterexample: a reference that trims to the empty string is not
ungradable; the scorer returns Correct. -/
theorem empty_reference_counterexample :
    score_task "hello".toList (mkTask "".toList) = some true := by
  decide

/-- C7 (amended): for every prediction, a task whose reference answer
trims to the empty string scores `some true` (Correct) — never `none` —
because the empty normalized reference is contained in every first
line. -/
theorem empty_reference_scores_correct (pred : PyStr) (t : BenchTask)
    (h : pyStrip t.reference_answer = []) : score_task pred t = some true := by
  unfold score_task
  rw [h]
  rw [if_neg (by decide : ¬ (_is_placeholder ([] : PyStr) = true))]
  rw [if_neg (by decide : ¬ (80 < ([] : PyStr).length))]
  simp only [show _normalize_numbers (_normalize ([] : PyStr)) = [] from rfl]
  by_cases hp : _normalize_numbers (_normalize pred) = []
  · rw [if_pos hp]
  · rw [if_neg hp, if_pos (isSubstr_nil _)]

/-- Closed witness discharging the hypothesis of
`empty_reference_scores_correct` at a whitespace-only reference. -/
theorem empty_reference_scores_correct_witness :
    pyStrip "  ".toList = [] ∧
      score_task "yo".toList (mkTask "  ".toList) = some true :=
  ⟨by decide, empty_reference_scores_correct "yo".toList (mkTask "  ".toList) (by decide)⟩

/-- Characters produced by whitespace collapsing are single spaces or
non-whitespace characters of the input. -/
theorem mem_collapseAux {c : Char} :
    ∀ {b : Bool} {l : PyStr}, c ∈ collapseAux b l →
      c = ' ' ∨ (c ∈ l ∧ isPySpace c = false) := by
  intro b l
  induction l generalizing b with
  | nil => intro h; cases h
  | cons a t ih =>
    intro h
    unfold collapseAux at h
    by_cases ha : isPySpace a
    · rw [if_pos ha] at h
      split at h
      · rcases ih h with h' | ⟨h1, h2⟩
        · exact Or.inl h'
        · exact Or.inr ⟨List.mem_cons_of_mem _ h1, h2⟩
      · rcases List.mem_cons.mp h with h' | h'
        · exact Or.inl h'
        · rcases ih h' with h'' | ⟨h1, h2⟩
          · exact Or.inl h''
          · exact Or.inr ⟨List.mem_cons_of_mem _ h1, h2⟩
    · rw [if_neg ha] at h
      rcases List.mem_cons.mp h with h' | h'
      · subst h'
        exact Or.inr ⟨List.mem_cons_self _ _, by simpa using ha⟩
      · rcases ih h' with h'' | ⟨h1, h2⟩
        · exact Or.inl h''
        · exact Or.inr ⟨List.mem_cons_of_mem _ h1, h2⟩

/-- Characters of `articleSub l` are characters of `l`. -/
theorem mem_articleSub {c : Char} {l : PyStr} (h : c ∈ articleSub l) : c ∈ l := by
  unfold articleSub at h
  split at h
  · exact (List.drop_suffix _ _).mem ((List.dropWhile_suffix _).mem h)
  · split at h
    · exact (List.drop_suffix _ _).mem ((List.dropWhile_suffix _).mem h)
    · split at h
      · exact (List.drop_suffix _ _).mem ((List.dropWhile_suffix _).mem h)
      · exact h

/-- A whitespace character occurring in a normalized string is a single
space. -/
theorem ws_mem_normalize {c : Char} {x : PyStr} (h : c ∈ _normalize x)
    (hws : isPySpace c = true) : c = ' ' := by
  unfold _normalize at h
  have h1 := mem_pyStrip h
  have h2 := mem_articleSub h1
  have h3 := (List.rdropWhile_prefix _ _).mem h2
  have h4 := (List.mem_filter.mp h3).1
  rcases mem_collapseAux h4 with h5 | ⟨_, h6⟩
  · exact h5
  · rw [hws] at h6; cases h6

/-- Characters of the number-word-substituted string are characters of the
input or ASCII digits. -/
theorem mem_nnAux {c : Char} :
    ∀ {fuel : Nat} {b : Bool} {l : PyStr}, c ∈ nnAux fuel b l →
      c ∈ l ∨ c.isDigit = true := by
  intro fuel
  induction fuel with
  | zero => intro b l h; exact Or.inl h
  | succ n ih =>
    intro b l h
    match l with
    | [] => cases h
    | a :: t =>
      unfold nnAux at h
      split at h
      · cases hf : findNumberWord (a :: t) with
        | none =>
          rw [hf] at h
          rcases List.mem_cons.mp h with h' | h'
          · exact Or.inl (h' ▸ List.mem_cons_self _ _)
          · rcases ih h' with h'' | h''
            · exact Or.inl (List.mem_cons_of_mem _ h'')
            · exact Or.inr h''
        | some wd =>
          rw [hf] at h
          rcases List.mem_append.mp h with h' | h'
          · have hwd : wd ∈ numberWords := List.mem_of_find?_eq_some hf
            have hall : numberWords.all (fun q => q.2.all Char.isDigit) = true := by
              decide
            rw [List.all_eq_true] at hall
            have := hall wd hwd
            rw [List.all_eq_true] at this
            exact Or.inr (this c h')
          · rcases ih h' with h'' | h''
            · exact Or.inl ((List.drop_suffix _ _).mem h'')
            · exact Or.inr h''
      · rcases List.mem_cons.mp h with h' | h'
        · exact Or.inl (h' ▸ List.mem_cons_self _ _)
        · rcases ih h' with h'' | h''
          · exact Or.inl (List.mem_cons_of_mem _ h'')
          · exact Or.inr h''

/-- C9: normalized text contains no newline (whitespace runs, newlines
included, collapse to single spaces), so the scorer's `first line` of the
normalized prediction is the whole normalized prediction, and a reference
occurring only after a newline in the raw prediction is still found by
substring containment. -/
theorem normalize_no_newline :
    (∀ x : PyStr, (_normalize x).all (fun c => !(c == '\n')) = true) ∧
    (∀ pred : PyStr,
      firstLineOf (_normalize_numbers (_normalize pred)) =
        _normalize_numbers (_normalize pred)) ∧
    score_task "Answer:\nIt was 2021, I think".toList (mkTask "2021".toList) =
      some true := by
  have hnl : ∀ x : PyStr, ∀ c : Char, c ∈ _normalize_numbers (_normalize x) →
      ¬ c = '\n' := by
    intro x c hc hc'
    subst hc'
    rcases mem_nnAux hc with h | h
    · have := ws_mem_normalize h (by decide)
      cases this
    · cases h
  refine ⟨?_, ?_, by decide⟩
  · intro x
    rw [List.all_eq_true]
    intro c hc
    have : ¬ c = '\n' := by
      intro hc'
      subst hc'
      exact absurd (ws_mem_normalize hc (by decide)) (by decide)
    simpa using this
  · intro pred
    unfold firstLineOf
    rw [List.takeWhile_eq_self_iff]
    intro c hc
    simpa using hnl pred c hc

/-- A whitespace character is fixed by the NFKD table and by lowercasing. -/
theorem ws_char_fixed {a : Char} (h : isPySpace a = true) :
    nfkdChar a = [a] ∧ lowerChar a = a := by
  have : ((((a = ' ' ∨ a = '\t') ∨ a = '\n') ∨ a = '\r') ∨ a = Char.ofNat 11) ∨
      a = Char.ofNat 12 := by
    simpa [isPySpace] using h
  rcases this with ((((h' | h') | h') | h') | h') | h' <;> subst h' <;>
    exact ⟨by decide, by decide⟩

/-- `pyLower ∘ nfkd` fixes all-whitespace strings. -/
theorem pyLower_nfkd_ws {A : PyStr} (h : ∀ c ∈ A, isPySpace c = true) :
    pyLower (nfkd A) = A := by
  induction A with
  | nil => rfl
  | cons a t ih =>
    have ha := ws_char_fixed (h a (List.mem_cons_self _ _))
    have ht := ih (fun c hc => h c (List.mem_cons_of_mem _ hc))
    unfold nfkd pyLower at ht ⊢
    rw [List.flatMap_cons, List.map_append, ha.1]
    simpa [ha.2] using ht

/-- Stripping ignores an all-whitespace prefix. -/
theorem pyStrip_append_ws_left {A x : PyStr} (h : ∀ c ∈ A, isPySpace c = true) :
    pyStrip (A ++ x) = pyStrip x := by
  unfold pyStrip
  rw [List.dropWhile_append, if_pos]
  rw [List.isEmpty_iff, List.dropWhile_eq_nil_iff]
  exact h

/-- Right-dropping ignores an all-whitespace suffix. -/
theorem rdropWhile_append_ws {B y : PyStr} (h : ∀ c ∈ B, isPySpace c = true) :
    List.rdropWhile isPySpace (y ++ B) = List.rdropWhile isPySpace y := by
  unfold List.rdropWhile
  rw [List.reverse_append, List.dropWhile_append, if_pos]
  rw [List.isEmpty_iff, List.dropWhile_eq_nil_iff]
  intro c hc
  exact h c (List.mem_reverse.mp hc)

/-- Stripping ignores an all-whitespace suffix. -/
theorem pyStrip_append_ws_right {B x : PyStr} (h : ∀ c ∈ B, isPySpace c = true) :
    pyStrip (x ++ B) = pyStrip x := by
  unfold pyStrip
  by_cases hx : x.dropWhile isPySpace = []
  · rw [List.dropWhile_append, if_pos (by rw [List.isEmpty_iff]; exact hx), hx]
    rw [List.rdropWhile_eq_nil_iff.mpr, List.rdropWhile_nil]
    intro c hc
    exact h c ((List.dropWhile_suffix _).mem hc)
  · rw [List.dropWhile_append, if_neg (by rw [List.isEmpty_iff]; exact hx)]
    exact rdropWhile_append_ws h

/-- Every string is an all-whitespace prefix, its strip, and an
all-whitespace suffix. -/
theorem pyStrip_decomposition (r : PyStr) :
    ∃ A B, (∀ c ∈ A, isPySpace c = true) ∧ (∀ c ∈ B, isPySpace c = true) ∧
      r = A ++ pyStrip r ++ B := by
  refine ⟨r.takeWhile isPySpace, (r.dropWhile isPySpace).rtakeWhile isPySpace,
    fun c hc => List.mem_takeWhile_imp hc, fun c hc => List.mem_rtakeWhile_imp hc, ?_⟩
  unfold pyStrip
  have h1 : List.rdropWhile isPySpace (r.dropWhile isPySpace) ++
      (r.dropWhile isPySpace).rtakeWhile isPySpace = r.dropWhile isPySpace := by
    unfold List.rdropWhile List.rtakeWhile
    rw [← List.reverse_append, List.takeWhile_append_dropWhile, List.reverse_reverse]
  rw [List.append_assoc, h1, List.takeWhile_append_dropWhile]

/-- Normalization is insensitive to outer whitespace stripping. -/
theorem normalize_pyStrip (r : PyStr) : _normalize (pyStrip r) = _normalize r := by
  have key : pyStrip (pyLower (nfkd (pyStrip r))) = pyStrip (pyLower (nfkd r)) := by
    obtain ⟨A, B, hA, hB, hr⟩ := pyStrip_decomposition r
    conv_rhs => rw [hr]
    unfold nfkd pyLower
    rw [List.flatMap_append, List.flatMap_append, List.map_append, List.map_append]
    rw [show (List.map lowerChar (List.flatMap A nfkdChar)) = A from pyLower_nfkd_ws hA]
    rw [show (List.map lowerChar (List.flatMap B nfkdChar)) = B from pyLower_nfkd_ws hB]
    rw [List.append_assoc]
    rw [pyStrip_append_ws_left hA]
    rw [pyStrip_append_ws_right hB]
  show pyStrip (articleSub (rstripPunct (removeBackticks (collapseWS
      (pyStrip (pyLower (nfkd (pyStrip r)))))))) =
    pyStrip (articleSub (rstripPunct (removeBackticks (collapseWS
      (pyStrip (pyLower (nfkd r)))))))
  rw [key]

/-- C2: a verbatim echo of a gradable reference always scores Correct: for
any reference of length 3..80 containing neither bracket, scoring the
reference text itself against its own task yields `some true`, because
both sides pass through the same normalization and meet at the exact-match
stage. -/
theorem verbatim_reference_scores_correct (r : PyStr) (t : BenchTask)
    (href : t.reference_answer = r) (_h3 : 3 ≤ r.length) (h80 : r.length ≤ 80)
    (hbl : '[' ∉ r) (_hbr : ']' ∉ r) :
    score_task r t = some true := by
  unfold score_task
  rw [href]
  rw [if_neg (fun hp => hbl (mem_pyStrip ((is_placeholder_strip_iff r).mp hp).1))]
  rw [if_neg (by
    intro hlen
    exact absurd (le_trans (length_pyStrip_le r) h80) (not_le.mpr hlen))]
  rw [if_pos]
  rw [normalize_pyStrip]

/-- Closed witness discharging the hypotheses of
`verbatim_reference_scores_correct` at a concrete reference. -/
theorem verbatim_reference_scores_correct_witness :
    (3 ≤ "paris".toList.length ∧ "paris".toList.length ≤ 80 ∧
      '[' ∉ "paris".toList ∧ ']' ∉ "paris".toList) ∧
    score_task "paris".toList (mkTask "paris".toList) = some true :=
  ⟨⟨by decide, by decide, by decide, by decide⟩,
   verbatim_reference_scores_correct "paris".toList (mkTask "paris".toList) rfl
     (by decide) (by decide) (by decide) (by decide)⟩

/-- Lowercasing a character twice is the same as lowercasing it once. -/
theorem lowerChar_idem (d : Char) : lowerChar (lowerChar d) = lowerChar d := by
  cases h : assocFind lowerTable d with
  | none =>
    have hd : lowerChar d = d := by unfold lowerChar; rw [h]; rfl
    rw [hd, hd]
  | some v =>
    have hd : lowerChar d = v := by unfold lowerChar; rw [h]; rfl
    rw [hd]
    obtain ⟨p, hp, _, hpv⟩ := assocFind_mem h
    have hall : lowerTable.all (fun q => q.2.isUpper = false) = true := by decide
    rw [List.all_eq_true] at hall
    have hup : p.2.isUpper = false := by simpa using hall p hp
    exact lowerChar_eq_self_of_not_upper (hpv ▸ hup)

/-- Characters of `pyLower (nfkd x)` are fixed points of the NFKD table
and of lowercasing. -/
theorem stable_mem_pyLower_nfkd {c : Char} {x : PyStr} (h : c ∈ pyLower (nfkd x)) :
    nfkdChar c = [c] ∧ lowerChar c = c := by
  unfold pyLower nfkd at h
  rw [List.mem_map] at h
  obtain ⟨d, hd, hdc⟩ := h
  rw [List.mem_flatMap] at hd
  obtain ⟨e, _, hde⟩ := hd
  subst hdc
  refine ⟨?_, lowerChar_idem d⟩
  unfold nfkdChar at hde
  cases hf : assocFind nfkdTable e with
  | some v =>
    rw [hf] at hde
    simp only [Option.getD_some] at hde
    obtain ⟨p, hp, _, hpv⟩ := assocFind_mem hf
    have hall : nfkdTable.all
        (fun q => q.2.all (fun d => nfkdChar (lowerChar d) == [lowerChar d])) = true := by
      decide
    rw [List.all_eq_true] at hall
    have h2 := hall p hp
    rw [List.all_eq_true] at h2
    have := h2 d (hpv ▸ hde)
    simpa using this
  | none =>
    rw [hf] at hde
    simp only [Option.getD_none, List.mem_singleton] at hde
    subst hde
    cases hl : assocFind lowerTable d with
    | some w =>
      have hdw : lowerChar d = w := by unfold lowerChar; rw [hl]; rfl
      rw [hdw]
      obtain ⟨p, hp, _, hpv⟩ := assocFind_mem hl
      have hall : lowerTable.all (fun q => nfkdChar q.2 == [q.2]) = true := by decide
      rw [List.all_eq_true] at hall
      have := hall p hp
      rw [hpv] at this
      simpa using this
    | none =>
      have hdd : lowerChar d = d := by unfold lowerChar; rw [hl]; rfl
      rw [hdd]
      unfold nfkdChar
      rw [hf]
      rfl

/-- Characters of a normalized string are fixed points of the NFKD table
and of lowercasing. -/
theorem normalize_chars_stable {c : Char} {x : PyStr} (h : c ∈ _normalize x) :
    nfkdChar c = [c] ∧ lowerChar c = c := by
  unfold _normalize at h
  have h1 := mem_pyStrip h
  have h2 := mem_articleSub h1
  have h3 := (List.rdropWhile_prefix _ _).mem h2
  have h4 := (List.mem_filter.mp h3).1
  rcases mem_collapseAux h4 with h5 | ⟨h6, _⟩
  · subst h5
    exact ⟨by decide, by decide⟩
  · exact stable_mem_pyLower_nfkd (mem_pyStrip h6)

/-- A normalized string never contains a backtick. -/
theorem mem_normalize_ne_btC {c : Char} {x : PyStr} (h : c ∈ _normalize x) :
    c ≠ btC := by
  unfold _normalize at h
  have h1 := mem_pyStrip h
  have h2 := mem_articleSub h1
  have h3 := (List.rdropWhile_prefix _ _).mem h2
  have := (List.mem_filter.mp h3).2
  simpa using this

/-- A list all of whose characters decompose to themselves is fixed by
`nfkd`. -/
theorem nfkd_eq_self {l : PyStr} (h : ∀ c ∈ l, nfkdChar c = [c]) : nfkd l = l := by
  induction l with
  | nil => rfl
  | cons a t ih =>
    unfold nfkd at ih ⊢
    rw [List.flatMap_cons, h a (List.mem_cons_self _ _),
      ih (fun c hc => h c (List.mem_cons_of_mem _ hc))]
    rfl

/-- A list all of whose characters are lowercase-fixed is fixed by
`pyLower`. -/
theorem pyLower_eq_self {l : PyStr} (h : ∀ c ∈ l, lowerChar c = c) : pyLower l = l := by
  induction l with
  | nil => rfl
  | cons a t ih =>
    unfold pyLower at ih ⊢
    rw [List.map_cons, h a (List.mem_cons_self _ _),
      ih (fun c hc => h c (List.mem_cons_of_mem _ hc))]

/-- The no-adjacent-whitespace property passes to the tail. -/
theorem noTwoSpaces_tail {a : Char} {t : PyStr} (h : noTwoSpaces (a :: t) = true) :
    noTwoSpaces t = true := by
  match t with
  | [] => rfl
  | b :: t' =>
    unfold noTwoSpaces at h
    rw [Bool.and_eq_true] at h
    exact h.2

/-- In a string without adjacent whitespace, a whitespace head is followed
by a non-whitespace character. -/
theorem noTwoSpaces_head {a b : Char} {t : PyStr}
    (h : noTwoSpaces (a :: b :: t) = true) (ha : isPySpace a = true) :
    isPySpace b = false := by
  unfold noTwoSpaces at h
  rw [Bool.and_eq_true] at h
  have h1 := h.1
  by_contra hb
  rw [Bool.not_eq_false] at hb
  rw [ha, hb] at h1
  simp at h1

/-- Whitespace collapsing fixes a string whose whitespace characters are
single isolated spaces. -/
theorem collapseAux_eq_self :
    ∀ {l : PyStr}, (∀ c ∈ l, isPySpace c = true → c = ' ') →
      noTwoSpaces l = true → collapseAux false l = l := by
  intro l
  induction l with
  | nil => intro _ _; rfl
  | cons a t ih =>
    intro hws hsp
    have hwst : ∀ c ∈ t, isPySpace c = true → c = ' ' :=
      fun c hc => hws c (List.mem_cons_of_mem _ hc)
    have htail : noTwoSpaces t = true := noTwoSpaces_tail hsp
    by_cases ha : isPySpace a = true
    · have ha' : a = ' ' := hws a (List.mem_cons_self _ _) ha
      subst ha'
      match t, htail, hwst, hsp with
      | [], _, _, _ => rfl
      | b :: t', htail, hwst, hsp =>
        have hb : isPySpace b = false := noTwoSpaces_head hsp (by decide)
        have hstep : ∀ (bb : Bool) (u : PyStr), collapseAux bb (b :: u) =
            b :: collapseAux false u := by
          intro bb u
          show (if isPySpace b = true then
              if bb = true then collapseAux true u else ' ' :: collapseAux true u
            else b :: collapseAux false u) = b :: collapseAux false u
          rw [if_neg (by simp [hb])]
        have hih : collapseAux false (b :: t') = b :: t' := ih hwst htail
        have ht' : collapseAux false t' = t' := by
          rw [hstep] at hih
          exact List.tail_eq_of_cons_eq hih
        show collapseAux false (' ' :: b :: t') = ' ' :: b :: t'
        calc collapseAux false (' ' :: b :: t')
            = ' ' :: collapseAux true (b :: t') := by
              show (if isPySpace ' ' = true then
                  if false = true then collapseAux true (b :: t')
                  else ' ' :: collapseAux true (b :: t')
                else ' ' :: collapseAux false (b :: t')) = _
              rw [if_pos (by decide), if_neg (by decide)]
          _ = ' ' :: b :: collapseAux false t' := by rw [hstep]
          _ = ' ' :: b :: t' := by rw [ht']
    · show (if isPySpace a = true then
          if false = true then collapseAux true t else ' ' :: collapseAux true t
        else a :: collapseAux false t) = a :: t
      rw [if_neg (by simp [ha])]
      rw [ih hwst htail]

/-- `rstrip` fixes a string that does not end in a punctuation
character. -/
theorem rstripPunct_eq_self {l : PyStr} (h : endsPunct l = false) :
    rstripPunct l = l := by
  unfold rstripPunct
  rw [List.rdropWhile_eq_self_iff]
  intro hl hp
  unfold endsPunct at h
  have hg : l.getLast? = some (l.getLast hl) := List.getLast?_eq_getLast l hl
  rw [hg] at h
  have h' : puncts.contains (l.getLast hl) = false := h
  rw [h'] at hp
  cases hp

/-- The article substitution fixes a string with no leading article. -/
theorem articleSub_eq_self {l : PyStr} (h : hasLeadingArticle l = false) :
    articleSub l = l := by
  unfold hasLeadingArticle at h
  rw [Bool.or_eq_false_iff, Bool.or_eq_false_iff] at h
  unfold articleSub
  rw [if_neg (by simp [h.1.1]), if_neg (by simp [h.1.2]), if_neg (by simp [h.2])]

/-- C3 counterexample: the normalizer is not idempotent.  Stripping the
leading article `the ` from `the a cat` exposes a second article `a `,
which only a second application removes. -/
theorem normalize_not_idempotent_counterexample :
    _normalize "the a cat".toList = "a cat".toList ∧
    _normalize (_normalize "the a cat".toList) = "cat".toList ∧
    _normalize (_normalize "the a cat".toList) ≠ _normalize "the a cat".toList := by
  refine ⟨by decide, by decide, by decide⟩

/-- C3 (amended): the normalizer is idempotent on every input whose
normalized form does not again begin with a leading article, contains no
two adjacent whitespace characters (backtick removal can create such a
pair), and does not end with a character from the `rstrip` set
(punctuation stripping can expose one before whitespace that the final
strip removes). -/
theorem normalize_idempotent_on_stable (x : PyStr)
    (hart : hasLeadingArticle (_normalize x) = false)
    (hsp : noTwoSpaces (_normalize x) = true)
    (hpt : endsPunct (_normalize x) = false) :
    _normalize (_normalize x) = _normalize x := by
  have hgood : ∀ c ∈ _normalize x, nfkdChar c = [c] ∧ lowerChar c = c :=
    fun c hc => normalize_chars_stable hc
  have hnf : nfkd (_normalize x) = _normalize x :=
    nfkd_eq_self (fun c hc => (hgood c hc).1)
  have hlow : pyLower (_normalize x) = _normalize x :=
    pyLower_eq_self (fun c hc => (hgood c hc).2)
  have hstrip : pyStrip (_normalize x) = _normalize x := by
    show pyStrip (pyStrip (articleSub (rstripPunct (removeBackticks (collapseWS
      (pyStrip (pyLower (nfkd x)))))))) = _
    rw [pyStrip_idem]
    rfl
  have hcol : collapseWS (_normalize x) = _normalize x :=
    collapseAux_eq_self (fun c hc => ws_mem_normalize hc) hsp
  have hbt : removeBackticks (_normalize x) = _normalize x := by
    unfold removeBackticks
    rw [List.filter_eq_self]
    intro c hc
    simpa using mem_normalize_ne_btC hc
  have hrp : rstripPunct (_normalize x) = _normalize x := rstripPunct_eq_self hpt
  have has : articleSub (_normalize x) = _normalize x := articleSub_eq_self hart
  show pyStrip (articleSub (rstripPunct (removeBackticks (collapseWS
    (pyStrip (pyLower (nfkd (_normalize x)))))))) = _normalize x
  rw [hnf, hlow, hstrip, hcol, hbt, hrp, has, hstrip]

/-- Closed witness discharging the hypotheses of
`normalize_idempotent_on_stable` at a concrete input. -/
theorem normalize_idempotent_on_stable_witness :
    (hasLeadingArticle (_normalize "Hello  World!".toList) = false ∧
      noTwoSpaces (_normalize "Hello  World!".toList) = true ∧
      endsPunct (_normalize "Hello  World!".toList) = false) ∧
    _normalize (_normalize "Hello  World!".toList) = _normalize "Hello  World!".toList :=
  ⟨⟨by decide, by decide, by decide⟩,
   normalize_idempotent_on_stable "Hello  World!".toList (by decide) (by decide)
     (by decide)⟩
